import Mathlib

/-!
Verification of the Vertex AI streaming provider
(`src/unnamed/part_002`, fetch-based implementation, and its callers).

The development shallowly embeds the TypeScript source: JavaScript objects
used as argument maps become association lists with JS field semantics
(`jsGet`/`jsSet`/`jsDelete`), the message converter
`convertMessagesToGoogleFormat`, the tool-call identity resolution inside
`streamVertexAI`, the SSE line buffering, and the streaming block assembler
become pure Lean functions, with the module-level mutable counter and
`Date.now()` passed as explicit state.
-/

set_option maxRecDepth 10000

namespace VertexAI

/-- JSON-like runtime values stored in a JavaScript object
(`Record<string, unknown>` in the source).  Nested objects and arrays are
represented by an opaque reference tag (`objLike`): the source never looks
inside argument values, and JavaScript compares objects by reference. -/
inductive JVal where
  | str (s : String)
  | num (n : Int)
  | boolean (b : Bool)
  | null
  | objLike (ref : Nat)
deriving DecidableEq

/-- A JavaScript object used as a map: ordered key/value pairs.
Objects built by the source (`{ ...spread }` literals) have unique keys. -/
abbrev ArgsMap := List (String × JVal)

/-- Property read `o[k]`: the value at the first matching key. -/
def jsGet (k : String) : ArgsMap → Option JVal
  | [] => none
  | (k', v) :: rest => if k' = k then some v else jsGet k rest

/-- Property write `o[k] = v`: overwrite in place if the key exists,
otherwise append (JS insertion-order semantics). -/
def jsSet (k : String) (v : JVal) : ArgsMap → ArgsMap
  | [] => [(k, v)]
  | (k', v') :: rest =>
      if k' = k then (k, v) :: rest else (k', v') :: jsSet k v rest

/-- Property removal `delete o[k]`. -/
def jsDelete (k : String) : ArgsMap → ArgsMap
  | [] => []
  | (k', v') :: rest =>
      if k' = k then jsDelete k rest else (k', v') :: jsDelete k rest

/-- JavaScript truthiness of a runtime value. -/
def jsTruthy : JVal → Bool
  | .str s => s ≠ ""
  | .num n => n ≠ 0
  | .boolean b => b
  | .null => false
  | .objLike _ => true

/-- Truthiness of an optional string field (`undefined` and `""` are falsy). -/
def jsTruthyStr : Option String → Bool
  | some s => s ≠ ""
  | none => false

/-- `functionCall` wire shape: `{ name, args?, id? }`.  The `id` field is
never set by the outgoing converter; the server may set it in responses. -/
structure FunctionCall where
  name : String
  args : Option ArgsMap := none
  id : Option String := none
deriving DecidableEq

/-- `functionResponse` wire shape: `{ name, response }`. -/
structure FunctionResponse where
  name : String
  response : ArgsMap
deriving DecidableEq

/-- `inlineData` wire shape: `{ mimeType, data }`. -/
structure InlineData where
  mimeType : String
  data : String
deriving DecidableEq

/-- `GooglePart`: a bag of optional variant fields, as in the source. -/
structure GooglePart where
  text : Option String := none
  functionCall : Option FunctionCall := none
  functionResponse : Option FunctionResponse := none
  inlineData : Option InlineData := none
  thoughtSignature : Option String := none
deriving DecidableEq

/-- Roles accepted by Vertex AI contents. -/
inductive Role where
  | user
  | model
deriving DecidableEq

/-- `GoogleContent`: `{ role, parts }`. -/
structure GoogleContent where
  role : Role
  parts : List GooglePart
deriving DecidableEq

/-- One candidate of a response chunk (fields the stream loop reads). -/
structure GoogleCandidate where
  content : Option GoogleContent := none
  finishReason : Option String := none
deriving DecidableEq

/-- One decoded SSE response chunk (fields the stream loop reads). -/
structure GoogleResponse where
  candidates : List GoogleCandidate := []
deriving DecidableEq

/-- A user-message content block (`text`/`image`; other block kinds are
dropped by the converter). -/
inductive UserBlock where
  | text (s : String)
  | image (mimeType : Option String) (data : String)
  | other
deriving DecidableEq

/-- User message content: a plain string or a list of blocks. -/
inductive UserContent where
  | str (s : String)
  | blocks (bs : List UserBlock)
deriving DecidableEq

/-- An assistant-message content block. -/
inductive AssistantBlock where
  | text (s : String)
  | thinking (s : String)
  | toolCall (id : String) (name : String) (arguments : ArgsMap)
      (thoughtSignature : Option String)
deriving DecidableEq

/-- A tool-result content block (only `text` is representable). -/
inductive ToolResultBlock where
  | text (s : String)
  | other
deriving DecidableEq

/-- A conversation message. -/
inductive Message where
  | user (content : UserContent)
  | assistant (content : List AssistantBlock)
  | toolResult (toolCallId : String) (toolName : String)
      (content : List ToolResultBlock)
deriving DecidableEq

/-- The provider-agnostic conversation (the field the converter reads). -/
structure Context where
  messages : List Message
deriving DecidableEq

/-- The reserved marker key smuggling the caller-assigned tool-call id
through `functionCall.args`. -/
def markerKey : String := "__openclaw_tool_call_id"

/-- Conversion of one message, as in the body of the `for` loop of
`convertMessagesToGoogleFormat`: a user message always pushes one content;
assistant and toolResult messages push one content only when
`parts.length > 0`. -/
def convertMessage : Message → List GoogleContent
  | .user c =>
      let parts : List GooglePart :=
        match c with
        | .str s => [{ text := some s }]
        | .blocks bs =>
            bs.filterMap fun b =>
              match b with
              | .text s => some { text := some s }
              | .image m d =>
                  let mt : String :=
                    match m with
                    | some s => if s ≠ "" then s else "image/jpeg"
                    | none => "image/jpeg"
                  some { inlineData := some { mimeType := mt, data := d } }
              | .other => none
      [{ role := .user, parts := parts }]
  | .assistant blocks =>
      let parts : List GooglePart :=
        blocks.filterMap fun b =>
          match b with
          | .text s => some { text := some s }
          | .thinking _ => none
          | .toolCall id name arguments sig =>
              let argsWithMarker :=
                if id ≠ "" then jsSet markerKey (.str id) arguments
                else arguments
              some { functionCall :=
                       some { name := name, args := some argsWithMarker,
                              id := none },
                     thoughtSignature := if jsTruthyStr sig then sig else none }
      if 0 < parts.length then [{ role := .model, parts := parts }] else []
  | .toolResult _ toolName blocks =>
      let parts : List GooglePart :=
        blocks.filterMap fun b =>
          match b with
          | .text s =>
              some { functionResponse :=
                       some { name := toolName,
                              response := [("result", JVal.str s)] } }
          | .other => none
      if 0 < parts.length then [{ role := .user, parts := parts }] else []

/-- `convertMessagesToGoogleFormat(context)`: the ordered wire-content list. -/
def convertMessagesToGoogleFormat (context : Context) : List GoogleContent :=
  (context.messages.map convertMessage).flatten

/-- The synthesized fallback id:
``name_Date.now()_++toolCallCounter`` (pre-increment, so the displayed
value is the incremented counter).  Returns the id and the new counter. -/
def synthToolCallId (name : String) (now counter : Nat) : String × Nat :=
  (name ++ "_" ++ Nat.repr now ++ "_" ++ Nat.repr (counter + 1), counter + 1)

/-- Tool-call id resolution:
`echoedId || serverId || name_Date.now()_++toolCallCounter` where
`echoedId = args.__openclaw_tool_call_id` and `||` is JS falsy-choice.
Returns the resolved id (a runtime value, cast to string in the source)
and the counter after resolution. -/
def resolveToolCallId (name : String) (args : ArgsMap) (serverId : Option String)
    (now counter : Nat) : JVal × Nat :=
  let fromServer : JVal × Nat :=
    match serverId with
    | some s =>
        if s ≠ "" then (JVal.str s, counter)
        else
          let (i, c) := synthToolCallId name now counter
          (JVal.str i, c)
    | none =>
        let (i, c) := synthToolCallId name now counter
        (JVal.str i, c)
  match jsGet markerKey args with
  | some v => if jsTruthy v then (v, counter) else fromServer
  | none => fromServer

/-- The `ToolCall` content entry produced by the stream loop. -/
structure ToolCall where
  id : JVal
  name : String
  arguments : ArgsMap
  thoughtSignature : Option String
deriving DecidableEq

/-- The open-block state (`currentBlock` in the source):
`TextContent | ThinkingContent | null`. -/
inductive OpenBlock where
  | text (s : String)
  | thinking (s : String)
deriving DecidableEq

/-- A content block accumulated into `output.content`. -/
inductive ContentBlock where
  | text (s : String)
  | thinking (s : String)
  | toolCall (tc : ToolCall)
deriving DecidableEq

/-- `AssistantMessage["stopReason"]` values the source assigns. -/
inductive StopReason where
  | stop
  | length
  | toolUse
  | error
deriving DecidableEq

/-- `mapStopReason(finishReason)`. -/
def mapStopReason : Option String → StopReason
  | none => .stop
  | some r =>
      if r = "" then .stop
      else if r = "STOP" then .stop
      else if r = "MAX_TOKENS" then .length
      else if r = "SAFETY" then .error
      else if r = "RECITATION" then .error
      else .stop

/-- The events the source pushes into the assistant-message event stream.
`toolcall_delta` carries the arguments whose JSON serialization is the
delta payload in the source. -/
inductive Event where
  | start
  | text_start (contentIndex : Nat)
  | text_delta (contentIndex : Nat) (delta : String)
  | text_end (contentIndex : Nat) (content : String)
  | thinking_start (contentIndex : Nat)
  | thinking_delta (contentIndex : Nat) (delta : String)
  | thinking_end (contentIndex : Nat) (content : String)
  | toolcall_start (contentIndex : Nat)
  | toolcall_delta (contentIndex : Nat) (deltaArgs : ArgsMap)
  | toolcall_end (contentIndex : Nat) (tc : ToolCall)
  | done (reason : StopReason)
  | error (reason : StopReason) (errorMessage : Option String)
deriving DecidableEq

/-- The mutable state of one stream: `output.content`, `currentBlock`,
`output.stopReason`, and the module-level `toolCallCounter` threaded as
explicit state. -/
structure StreamState where
  content : List ContentBlock
  currentBlock : Option OpenBlock
  stopReason : StopReason
  counter : Nat
deriving DecidableEq

/-- Initial stream state; `counter` is the value of the module-level
`toolCallCounter` when the stream starts. -/
def initState (counter : Nat) : StreamState :=
  { content := [], currentBlock := none, stopReason := .stop,
    counter := counter }

/-- Replace the last element of the content list (the source mutates the
pushed block object in place, which is the last element while open). -/
def setLast (l : List ContentBlock) (b : ContentBlock) : List ContentBlock :=
  l.dropLast ++ [b]

/-- Handling of a text-bearing part (`part.text !== undefined`):
close a thinking block if open, open a text block if none is open,
then append the delta to the open text block. -/
def processTextPart (st : StreamState) (s : String) : StreamState × List Event :=
  let step1 : StreamState × List Event :=
    match st.currentBlock with
    | some (.thinking t) =>
        ({ st with currentBlock := none },
         [.thinking_end (st.content.length - 1) t])
    | _ => (st, [])
  let st1 := step1.1
  let step2 : StreamState × List Event :=
    match st1.currentBlock with
    | none =>
        ({ st1 with currentBlock := some (.text ""),
                    content := st1.content ++ [.text ""] },
         [.text_start ((st1.content ++ [ContentBlock.text ""]).length - 1)])
    | some _ => (st1, [])
  let st2 := step2.1
  match st2.currentBlock with
  | some (.text t) =>
      ({ st2 with currentBlock := some (.text (t ++ s)),
                  content := setLast st2.content (.text (t ++ s)) },
       step1.2 ++ step2.2 ++ [.text_delta (st2.content.length - 1) s])
  | _ => (st2, step1.2 ++ step2.2)

/-- Handling of a function-call part (`part.functionCall`): close whatever
block is open, resolve the id, strip the marker from the arguments, append
a toolCall content entry and emit the toolcall event triplet. -/
def processFunctionCallPart (st : StreamState) (fc : FunctionCall)
    (sig : Option String) (now : Nat) : StreamState × List Event :=
  let step1 : StreamState × List Event :=
    match st.currentBlock with
    | some (.text t) =>
        ({ st with currentBlock := none },
         [.text_end (st.content.length - 1) t])
    | some (.thinking t) =>
        ({ st with currentBlock := none },
         [.thinking_end (st.content.length - 1) t])
    | none => (st, [])
  let st1 := step1.1
  let args := fc.args.getD []
  let resolved := resolveToolCallId fc.name args fc.id now st1.counter
  let cleanArgs := jsDelete markerKey args
  let tc : ToolCall :=
    { id := resolved.1, name := fc.name, arguments := cleanArgs,
      thoughtSignature := sig }
  let st2 := { st1 with content := st1.content ++ [.toolCall tc],
                        counter := resolved.2 }
  (st2,
   step1.2 ++
     [.toolcall_start (st2.content.length - 1),
      .toolcall_delta (st2.content.length - 1) cleanArgs,
      .toolcall_end (st2.content.length - 1) tc])

/-- Handling of one part: the text branch, then the functionCall branch
(a single `GooglePart` may carry both fields). -/
def processPart (now : Nat) (st : StreamState) (part : GooglePart) :
    StreamState × List Event :=
  let step1 : StreamState × List Event :=
    match part.text with
    | some s => processTextPart st s
    | none => (st, [])
  let step2 : StreamState × List Event :=
    match part.functionCall with
    | some fc => processFunctionCallPart step1.1 fc part.thoughtSignature now
    | none => (step1.1, [])
  (step2.1, step1.2 ++ step2.2)

/-- Processing of a list of parts in order. -/
def processParts (now : Nat) (st : StreamState) :
    List GooglePart → StreamState × List Event
  | [] => (st, [])
  | p :: ps =>
      let step := processPart now st p
      let rest := processParts now step.1 ps
      (rest.1, step.2 ++ rest.2)

/-- Processing of one decoded chunk: the parts of `candidates?.[0]`, then
the finishReason update (forced to `toolUse` when a toolCall content entry
exists). -/
def processChunk (now : Nat) (st : StreamState) (chunk : GoogleResponse) :
    StreamState × List Event :=
  let candidate := chunk.candidates.head?
  let step1 : StreamState × List Event :=
    match candidate with
    | some c =>
        match c.content with
        | some gc => processParts now st gc.parts
        | none => (st, [])
    | none => (st, [])
  let st1 := step1.1
  let st2 : StreamState :=
    match candidate with
    | some c =>
        match c.finishReason with
        | some fr =>
            if fr ≠ "" then
              let r := mapStopReason (some fr)
              let r' :=
                if st1.content.any (fun b =>
                    match b with | .toolCall _ => true | _ => false)
                then StopReason.toolUse else r
              { st1 with stopReason := r' }
            else st1
        | none => st1
    | none => st1
  (st2, step1.2)

/-- Processing of a list of chunks in order. -/
def processChunks (now : Nat) (st : StreamState) :
    List GoogleResponse → StreamState × List Event
  | [] => (st, [])
  | c :: cs =>
      let step := processChunk now st c
      let rest := processChunks now step.1 cs
      (rest.1, step.2 ++ rest.2)

/-- The end-of-stream close of a still-open block. -/
def finalCloseEvents (st : StreamState) : List Event :=
  match st.currentBlock with
  | some (.text t) => [.text_end (st.content.length - 1) t]
  | some (.thinking t) => [.thinking_end (st.content.length - 1) t]
  | none => []

/-- The terminal event of the normal path: `done` when the stop reason is
stop, length or toolUse, otherwise `error` carrying the accumulated
message. -/
def terminalEvent (st : StreamState) : Event :=
  if st.stopReason = .stop ∨ st.stopReason = .length ∨ st.stopReason = .toolUse
  then .done st.stopReason
  else .error st.stopReason none

/-- How one invocation of `streamVertexAI` ends: the read loop delivers all
chunks and finishes; the read (or a later processing step) throws after
some chunks were delivered; or the function throws before the `start` event
(missing API key, HTTP error, null body). -/
inductive RunOutcome where
  | success (chunks : List GoogleResponse)
  | readThrew (chunks : List GoogleResponse) (msg : String)
  | preStreamFailure (msg : String)

/-- The full event sequence one invocation pushes before `stream.end`:
the try block (start, chunk events, final close, terminal event) or the
catch handler (an `error` event with the thrown message). -/
def streamVertexAIRun (now counter : Nat) (o : RunOutcome) : List Event :=
  match o with
  | .success chunks =>
      let run := processChunks now (initState counter) chunks
      [.start] ++ run.2 ++ finalCloseEvents run.1 ++ [terminalEvent run.1]
  | .readThrew chunks msg =>
      let run := processChunks now (initState counter) chunks
      [.start] ++ run.2 ++ [.error .error (some msg)]
  | .preStreamFailure msg => [.error .error (some msg)]

/-- Two consecutive invocations of `streamVertexAI`: the module-level
`let toolCallCounter = 0` (part_002 line 124) persists across invocations,
so the second stream starts from the first stream's final counter. -/
def runTwoStreams (now : Nat) (chunks1 chunks2 : List GoogleResponse) :
    List Event × List Event :=
  let run1 := processChunks now (initState 0) chunks1
  let run2 := processChunks now (initState run1.1.counter) chunks2
  (run1.2, run2.2)

/-- Split a character sequence at newline characters: the complete lines
(before each `'\n'`) and the trailing partial line.  This is
`buffer.split("\n")` with `buffer = lines.pop()`. -/
def splitNL : List Char → List (List Char) × List Char
  | [] => ([], [])
  | c :: rest =>
      let r := splitNL rest
      if c = '\n' then ([] :: r.1, r.2)
      else
        match r.1 with
        | [] => ([], c :: r.2)
        | l :: ls => ((c :: l) :: ls, r.2)

/-- The read loop of the SSE parser: each read is appended to the pending
buffer, complete lines are emitted, and the trailing partial line is
re-buffered; the final buffer is dropped when the reader reports done. -/
def runReads (buf : List Char) : List (List Char) → List (List Char) × List Char
  | [] => ([], buf)
  | r :: rs =>
      let step := splitNL (buf ++ r)
      let rest := runReads step.2 rs
      (step.1 ++ rest.1, rest.2)

/-- JavaScript `String.prototype.trim` whitespace characters (the ones
relevant to SSE line handling). -/
def isJsSpace (c : Char) : Bool :=
  c = ' ' ∨ c = '\t' ∨ c = '\n' ∨ c = '\r' ∨
  c = (Char.ofNat 11) ∨ c = (Char.ofNat 12) ∨ c = (Char.ofNat 0xA0) ∨
  c = (Char.ofNat 0xFEFF)

/-- `line.trim()` over characters. -/
def jsTrim (l : List Char) : List Char :=
  ((l.dropWhile isJsSpace).reverse.dropWhile isJsSpace).reverse

/-- Char-list prefix test (`line.startsWith(p)`). -/
def startsWithChars : List Char → List Char → Bool
  | _, [] => true
  | [], _ :: _ => false
  | c :: cs, p :: ps => c = p && startsWithChars cs ps

/-- The SSE data marker `"data: "`. -/
def dataMarker : List Char := ['d', 'a', 't', 'a', ':', ' ']

/-- The terminal sentinel payload `"[DONE]"`. -/
def doneSentinel : List Char := ['[', 'D', 'O', 'N', 'E', ']']

/-- What the per-line body of the loop does with one complete line. -/
inductive LineOutcome (χ : Type) where
  | skip
  | decodeFail
  | chunk (c : χ)
deriving DecidableEq

/-- The per-line handling: blank and comment lines are skipped, lines
without the data marker are skipped, the `[DONE]` sentinel is skipped, and
remaining payloads are JSON-decoded — `decode` stands for `JSON.parse`,
which is a runtime builtin; a decode failure is caught and logged. -/
def classifyLine {χ : Type} (decode : List Char → Option χ) (line : List Char) :
    LineOutcome χ :=
  if (jsTrim line).isEmpty || startsWithChars line [':'] then .skip
  else if !startsWithChars line dataMarker then .skip
  else
    let data := line.drop 6
    if data = doneSentinel then .skip
    else
      match decode data with
      | some c => .chunk c
      | none => .decodeFail

/-- The decoded chunks of a line sequence, in order. -/
def chunksOfLines {χ : Type} (decode : List Char → Option χ)
    (lines : List (List Char)) : List χ :=
  lines.filterMap fun l =>
    match classifyLine decode l with
    | .chunk c => some c
    | _ => none

/-- The per-line outcomes of a line sequence (diagnostics included). -/
def lineOutcomes {χ : Type} (decode : List Char → Option χ)
    (lines : List (List Char)) : List (LineOutcome χ) :=
  lines.map (classifyLine decode)

/-- End-to-end: the chunk sequence decoded from a sequence of reads. -/
def sseChunks {χ : Type} (decode : List Char → Option χ)
    (reads : List (List Char)) : List χ :=
  chunksOfLines decode (runReads [] reads).1

/-- The kind of an open block, for the bracketing checker. -/
inductive BlockKind where
  | text
  | thinking
deriving DecidableEq

/-- The kind of the open-block state. -/
def kindOf : Option OpenBlock → Option BlockKind
  | none => none
  | some (.text _) => some .text
  | some (.thinking _) => some .thinking

/-- One step of the bracketing checker: `none` means the event is illegal
in the given open-block state.  Block starts require no open block, deltas
and ends require a matching open block, and toolcall events require that
any open block was closed first; lifecycle events are neutral. -/
def scanStep (s : Option BlockKind) (e : Event) : Option (Option BlockKind) :=
  match e with
  | .text_start _ =>
      match s with | none => some (some .text) | some _ => none
  | .thinking_start _ =>
      match s with | none => some (some .thinking) | some _ => none
  | .text_delta _ _ =>
      match s with | some .text => some (some .text) | _ => none
  | .text_end _ _ =>
      match s with | some .text => some none | _ => none
  | .thinking_delta _ _ =>
      match s with | some .thinking => some (some .thinking) | _ => none
  | .thinking_end _ _ =>
      match s with | some .thinking => some none | _ => none
  | .toolcall_start _ =>
      match s with | none => some none | some _ => none
  | .toolcall_delta _ _ =>
      match s with | none => some none | some _ => none
  | .toolcall_end _ _ =>
      match s with | none => some none | some _ => none
  | .start => some s
  | .done _ => some s
  | .error _ _ => some s

/-- The bracketing checker over an event sequence. -/
def scanEvents (s : Option BlockKind) : List Event → Option (Option BlockKind)
  | [] => some s
  | e :: es =>
      match scanStep s e with
      | some s' => scanEvents s' es
      | none => none

/-- Terminal events (`done` or `error`). -/
def isTerminal : Event → Bool
  | .done _ => true
  | .error _ _ => true
  | _ => false

/-- Thinking-block events. -/
def isThinkingEvent : Event → Bool
  | .thinking_start _ => true
  | .thinking_delta _ _ => true
  | .thinking_end _ _ => true
  | _ => false

/-- Whether the open-block state is a thinking block. -/
def isThinkingBlock : Option OpenBlock → Bool
  | some (.thinking _) => true
  | _ => false

/-- Decimal digit characters of a natural number, most significant first
(a fuel-free counterpart of `Nat.toDigitsCore`). -/
def decChars (n : Nat) : List Char :=
  if _h : n < 10 then [Nat.digitChar n]
  else decChars (n / 10) ++ [Nat.digitChar (n % 10)]
decreasing_by
  exact Nat.div_lt_self (by omega) (by omega)

/-- Merge a pending prefix into the head line of a split result
(helper for reasoning about `splitNL` over concatenation). -/
def glue (t : List Char) (p : List (List Char) × List Char) :
    List (List Char) × List Char :=
  match p.1 with
  | [] => ([], t ++ p.2)
  | l :: ls => ((t ++ l) :: ls, p.2)

/-- Stop reasons for which the source emits `done` rather than `error`. -/
def isStopLike (r : StopReason) : Bool :=
  r = .stop || r = .length || r = .toolUse

/-- Whether an event is the `done` terminal. -/
def isDoneEvent : Event → Bool
  | .done _ => true
  | _ => false

/-- A response chunk carrying one functionCall with no marker, no args and
no server id, forcing id synthesis. -/
def synthOnlyChunk : GoogleResponse :=
  { candidates :=
      [{ content :=
           some { role := Role.model,
                  parts := [{ functionCall := some { name := "f" } }] } }] }

/-- A context whose single user message has an empty block list. -/
def emptyUserCtx : Context :=
  { messages := [Message.user (UserContent.blocks [])] }

/-- A concrete sample decoder standing in for `JSON.parse`: accepts only
the payload `ok`. -/
def exDecode : List Char → Option Nat :=
  fun l => if l = ['o', 'k'] then some 1 else none

theorem jsSet_of_absent {k : String} {A : ArgsMap} (v : JVal)
    (h : jsGet k A = none) : jsSet k v A = A ++ [(k, v)] := by
  induction A with
  | nil => simp [jsSet]
  | cons hd tl ih =>
      obtain ⟨k', v'⟩ := hd
      by_cases hk : k' = k
      · simp [jsGet, hk] at h
      · simp [jsGet, hk] at h
        simp [jsSet, hk, ih h]

theorem jsGet_append_self {k : String} {A : ArgsMap} (v : JVal)
    (h : jsGet k A = none) : jsGet k (A ++ [(k, v)]) = some v := by
  induction A with
  | nil => simp [jsGet]
  | cons hd tl ih =>
      obtain ⟨k', v'⟩ := hd
      by_cases hk : k' = k
      · simp [jsGet, hk] at h
      · simp [jsGet, hk] at h ⊢
        exact ih h

theorem jsDelete_of_absent {k : String} {A : ArgsMap}
    (h : jsGet k A = none) : jsDelete k A = A := by
  induction A with
  | nil => simp [jsDelete]
  | cons hd tl ih =>
      obtain ⟨k', v'⟩ := hd
      by_cases hk : k' = k
      · simp [jsGet, hk] at h
      · simp [jsGet, hk] at h
        simp [jsDelete, hk, ih h]

theorem jsDelete_append_self {k : String} {A : ArgsMap} (v : JVal)
    (h : jsGet k A = none) : jsDelete k (A ++ [(k, v)]) = A := by
  induction A with
  | nil => simp [jsDelete]
  | cons hd tl ih =>
      obtain ⟨k', v'⟩ := hd
      by_cases hk : k' = k
      · simp [jsGet, hk] at h
      · simp [jsGet, hk] at h
        simp [jsDelete, hk, ih h]

theorem jsGet_jsDelete_self (k : String) (A : ArgsMap) :
    jsGet k (jsDelete k A) = none := by
  induction A with
  | nil => simp [jsDelete, jsGet]
  | cons hd tl ih =>
      obtain ⟨k', v'⟩ := hd
      by_cases hk : k' = k
      · simp [jsDelete, hk, ih]
      · simp [jsDelete, hk, jsGet, ih]

theorem convertMessage_empty_parts_role (m : Message) :
    ∀ c ∈ convertMessage m, c.parts = [] → c.role = Role.user := by
  intro c hc hparts
  cases m with
  | user uc =>
      simp [convertMessage] at hc
      rw [hc]
  | assistant blocks =>
      simp only [convertMessage] at hc
      split at hc
      next hpos =>
        rw [List.mem_singleton] at hc
        subst hc
        exact absurd hparts (List.ne_nil_of_length_pos hpos)
      next => simp at hc
  | toolResult tid tname blocks =>
      simp only [convertMessage] at hc
      split at hc
      · simp at hc
        rw [hc]
      · simp at hc

/-- C2: an assistant toolCall block with a non-empty id and a marker-free
arguments map converts to one model WireContent whose single functionCall
part has no top-level id field and whose args map equals the block's
arguments plus exactly one reserved marker entry holding the caller id. -/
theorem outgoing_toolcall_conversion (id name : String) (A : ArgsMap)
    (sig : Option String) (hid : id ≠ "") (hA : jsGet markerKey A = none) :
    convertMessagesToGoogleFormat
        { messages := [Message.assistant
            [AssistantBlock.toolCall id name A sig]] } =
      [{ role := Role.model,
         parts := [{ functionCall :=
                       some { name := name,
                              args := some (A ++ [(markerKey, JVal.str id)]),
                              id := none },
                     thoughtSignature :=
                       if jsTruthyStr sig then sig else none }] }] := by
  simp [convertMessagesToGoogleFormat, convertMessage, hid,
        jsSet_of_absent _ hA]

/-- Witness for C2 at Scenario B: toolCall `call_123`/`get_weather` with
arguments `{location: "NYC"}`. -/
theorem outgoing_toolcall_conversion_witness :
    ("call_123" : String) ≠ "" ∧
    jsGet markerKey [("location", JVal.str "NYC")] = none ∧
    convertMessagesToGoogleFormat
        { messages := [Message.assistant
            [AssistantBlock.toolCall "call_123" "get_weather"
              [("location", JVal.str "NYC")] none]] } =
      [{ role := Role.model,
         parts := [{ functionCall :=
                       some { name := "get_weather",
                              args := some [("location", JVal.str "NYC"),
                                            (markerKey, JVal.str "call_123")],
                              id := none },
                     thoughtSignature := none }] }] := by
  refine ⟨by decide, by decide, ?_⟩
  have h := outgoing_toolcall_conversion "call_123" "get_weather"
    [("location", JVal.str "NYC")] none (by decide) (by decide)
  simpa using h

/-- Counterexample for C7: a user message whose block list is empty still
pushes a WireContent, so the converted list contains a WireContent with an
empty parts list. -/
theorem no_empty_wirecontent_cex :
    ∃ c ∈ convertMessagesToGoogleFormat emptyUserCtx, c.parts = [] := by
  refine ⟨{ role := Role.user, parts := [] }, ?_, rfl⟩
  decide

/-- C7 amended: assistant and toolResult messages never emit an empty
WireContent (their pushes are guarded by `parts.length > 0`); only user
messages can emit one, so every empty-parts WireContent has role user. -/
theorem no_empty_wirecontent_amended (ctx : Context) :
    ∀ c ∈ convertMessagesToGoogleFormat ctx, c.parts = [] →
      c.role = Role.user := by
  intro c hc hparts
  simp only [convertMessagesToGoogleFormat, List.mem_flatten] at hc
  obtain ⟨l, hl, hcl⟩ := hc
  simp only [List.mem_map] at hl
  obtain ⟨m, _, rfl⟩ := hl
  exact convertMessage_empty_parts_role m c hcl hparts

/-- Witness for the amended C7 at the empty-block user context. -/
theorem no_empty_wirecontent_amended_witness :
    ({ role := Role.user, parts := [] } : GoogleContent) ∈
        convertMessagesToGoogleFormat emptyUserCtx ∧
    Role.user = Role.user :=
  ⟨by decide,
   no_empty_wirecontent_amended emptyUserCtx
     { role := Role.user, parts := [] } (by decide) rfl⟩

/-- C1: round-trip identity.  An assistant toolCall block with non-empty id
`X` and marker-free arguments `A` converts to a functionCall part whose args
carry the marker; when that args map is echoed back (with any server id),
the emitted toolcall_end event carries a ToolCall with id `X` and arguments
`A`, marker-free. -/
theorem toolcall_roundtrip_identity (X name : String) (A : ArgsMap)
    (sig sig2 : Option String) (serverId : Option String) (now : Nat)
    (st : StreamState) (hX : X ≠ "") (hA : jsGet markerKey A = none) :
    ∃ argsOut idx,
      convertMessagesToGoogleFormat
          { messages := [Message.assistant
              [AssistantBlock.toolCall X name A sig]] } =
        [{ role := Role.model,
           parts := [{ functionCall :=
                         some { name := name, args := some argsOut,
                                id := none },
                       thoughtSignature :=
                         if jsTruthyStr sig then sig else none }] }] ∧
      Event.toolcall_end idx
          { id := JVal.str X, name := name, arguments := A,
            thoughtSignature := sig2 } ∈
        (processFunctionCallPart st
            { name := name, args := some argsOut, id := serverId }
            sig2 now).2 ∧
      jsGet markerKey A = none := by
  refine ⟨A ++ [(markerKey, JVal.str X)], st.content.length, ?_, ?_, hA⟩
  · simp [convertMessagesToGoogleFormat, convertMessage, hX,
          jsSet_of_absent _ hA]
  · have h1 : jsGet markerKey (A ++ [(markerKey, JVal.str X)]) =
        some (JVal.str X) := jsGet_append_self _ hA
    have h2 : jsDelete markerKey (A ++ [(markerKey, JVal.str X)]) = A :=
      jsDelete_append_self _ hA
    obtain ⟨cont, cur, sr, cnt⟩ := st
    cases cur with
    | none =>
        simp [processFunctionCallPart, resolveToolCallId, h1, h2, jsTruthy, hX]
    | some b =>
        cases b with
        | text t =>
            simp [processFunctionCallPart, resolveToolCallId, h1, h2,
                  jsTruthy, hX]
        | thinking t =>
            simp [processFunctionCallPart, resolveToolCallId, h1, h2,
                  jsTruthy, hX]

/-- Witness for C1: Scenario B's toolCall echoed back with a server id. -/
theorem toolcall_roundtrip_identity_witness :
    ("call_123" : String) ≠ "" ∧
    jsGet markerKey [("location", JVal.str "NYC")] = none ∧
    (∃ argsOut idx,
      convertMessagesToGoogleFormat
          { messages := [Message.assistant
              [AssistantBlock.toolCall "call_123" "get_weather"
                [("location", JVal.str "NYC")] none]] } =
        [{ role := Role.model,
           parts := [{ functionCall :=
                         some { name := "get_weather", args := some argsOut,
                                id := none },
                       thoughtSignature :=
                         if jsTruthyStr none then none else none }] }] ∧
      Event.toolcall_end idx
          { id := JVal.str "call_123", name := "get_weather",
            arguments := [("location", JVal.str "NYC")],
            thoughtSignature := none } ∈
        (processFunctionCallPart (initState 0)
            { name := "get_weather", args := some argsOut,
              id := some "server_generated_id" }
            none 0).2 ∧
      jsGet markerKey [("location", JVal.str "NYC")] = none) :=
  ⟨by decide, by decide,
   toolcall_roundtrip_identity "call_123" "get_weather"
     [("location", JVal.str "NYC")] none none (some "server_generated_id")
     0 (initState 0) (by decide) (by decide)⟩

/-- Counterexample for C3: a functionCall whose args carry the marker key
with an empty-string value and whose server id is `srv` resolves to `srv`,
not to the (present) marker value: resolution tests JS truthiness, not
presence. -/
theorem incoming_id_resolution_cex :
    jsGet markerKey [(markerKey, JVal.str "")] = some (JVal.str "") ∧
    resolveToolCallId "f" [(markerKey, JVal.str "")] (some "srv") 5 0 =
      (JVal.str "srv", 0) ∧
    JVal.str "srv" ≠ JVal.str "" := by
  refine ⟨by decide, by decide, by decide⟩

theorem toDigitsCore_eq_decChars (fuel : Nat) :
    ∀ n acc, n < fuel →
      Nat.toDigitsCore 10 fuel n acc = decChars n ++ acc := by
  induction fuel with
  | zero => intro n acc h; omega
  | succ f ih =>
      intro n acc h
      by_cases h10 : n / 10 = 0
      · have hn : n < 10 := by omega
        rw [decChars]
        simp [Nat.toDigitsCore, h10, hn, Nat.mod_eq_of_lt hn]
      · have hn : ¬ n < 10 := by
          intro hl
          exact h10 (Nat.div_eq_of_lt hl)
        rw [decChars]
        simp only [Nat.toDigitsCore, h10, if_false, hn, dif_neg]
        rw [ih (n / 10) _ (by omega)]
        simp

theorem repr_eq_decChars (n : Nat) : Nat.repr n = (decChars n).asString := by
  rw [Nat.repr, Nat.toDigits,
      toDigitsCore_eq_decChars (n + 1) n [] (by omega), List.append_nil]

theorem decChars_ne_nil (n : Nat) : decChars n ≠ [] := by
  rw [decChars]
  split <;> simp

theorem digitChar_fin_inj :
    ∀ a b : Fin 10, Nat.digitChar a = Nat.digitChar b → a = b := by decide

theorem digitChar_inj_of_lt {a b : Nat} (ha : a < 10) (hb : b < 10)
    (h : Nat.digitChar a = Nat.digitChar b) : a = b := by
  have := digitChar_fin_inj ⟨a, ha⟩ ⟨b, hb⟩ h
  exact congrArg Fin.val this

theorem decChars_inj (a : Nat) : ∀ b, decChars a = decChars b → a = b := by
  induction a using Nat.strong_induction_on with
  | _ a ih =>
      intro b h
      by_cases ha : a < 10 <;> by_cases hb : b < 10
      · have hae : decChars a = [Nat.digitChar a] := by
          rw [decChars]; simp [ha]
        have hbe : decChars b = [Nat.digitChar b] := by
          rw [decChars]; simp [hb]
        rw [hae, hbe] at h
        simp only [List.cons.injEq] at h
        exact digitChar_inj_of_lt ha hb h.1
      · have hae : decChars a = [Nat.digitChar a] := by
          rw [decChars]; simp [ha]
        have hbe : decChars b = decChars (b / 10) ++ [Nat.digitChar (b % 10)] := by
          rw [decChars]; simp [hb]
        rw [hae, hbe] at h
        exfalso
        have hlen := congrArg List.length h
        simp only [List.length_append, List.length_singleton] at hlen
        exact decChars_ne_nil (b / 10) (List.length_eq_zero.mp (by omega))
      · have hae : decChars a = decChars (a / 10) ++ [Nat.digitChar (a % 10)] := by
          rw [decChars]; simp [ha]
        have hbe : decChars b = [Nat.digitChar b] := by
          rw [decChars]; simp [hb]
        rw [hae, hbe] at h
        exfalso
        have hlen := congrArg List.length h
        simp only [List.length_append, List.length_singleton] at hlen
        exact decChars_ne_nil (a / 10) (List.length_eq_zero.mp (by omega))
      · have hae : decChars a = decChars (a / 10) ++ [Nat.digitChar (a % 10)] := by
          rw [decChars]; simp [ha]
        have hbe : decChars b = decChars (b / 10) ++ [Nat.digitChar (b % 10)] := by
          rw [decChars]; simp [hb]
        rw [hae, hbe] at h
        obtain ⟨h1, h2⟩ := List.append_inj' h (by simp)
        have hd : a / 10 = b / 10 :=
          ih (a / 10) (Nat.div_lt_self (by omega) (by omega)) (b / 10) h1
        have hm : a % 10 = b % 10 :=
          digitChar_inj_of_lt (Nat.mod_lt _ (by omega)) (Nat.mod_lt _ (by omega))
            (by simpa using h2)
        omega

theorem digitChar_ne_underscore (n : Nat) : Nat.digitChar n ≠ '_' := by
  by_cases h16 : n < 16
  · interval_cases n <;> decide
  · have h0 : ¬ n = 0 := by omega
    have h1 : ¬ n = 1 := by omega
    have h2 : ¬ n = 2 := by omega
    have h3 : ¬ n = 3 := by omega
    have h4 : ¬ n = 4 := by omega
    have h5 : ¬ n = 5 := by omega
    have h6 : ¬ n = 6 := by omega
    have h7 : ¬ n = 7 := by omega
    have h8 : ¬ n = 8 := by omega
    have h9 : ¬ n = 9 := by omega
    have h10 : ¬ n = 10 := by omega
    have h11 : ¬ n = 11 := by omega
    have h12 : ¬ n = 12 := by omega
    have h13 : ¬ n = 13 := by omega
    have h14 : ¬ n = 14 := by omega
    have h15 : ¬ n = 15 := by omega
    simp [Nat.digitChar, h0, h1, h2, h3, h4, h5, h6, h7, h8, h9, h10, h11,
          h12, h13, h14, h15]

theorem nat_repr_inj {a b : Nat} (h : Nat.repr a = Nat.repr b) : a = b := by
  rw [repr_eq_decChars, repr_eq_decChars] at h
  have hd := congrArg String.data h
  simp only [List.asString] at hd
  exact decChars_inj a b hd

theorem decChars_no_underscore (n : Nat) : '_' ∉ decChars n := by
  induction n using Nat.strong_induction_on with
  | _ n ih =>
      by_cases hn : n < 10
      · have he : decChars n = [Nat.digitChar n] := by
          rw [decChars]; simp [hn]
        rw [he]
        simp only [List.mem_singleton]
        exact fun heq => digitChar_ne_underscore n heq.symm
      · have he : decChars n = decChars (n / 10) ++ [Nat.digitChar (n % 10)] := by
          rw [decChars]; simp [hn]
        rw [he]
        simp only [List.mem_append, List.mem_singleton]
        rintro (hmem | heq)
        · exact ih (n / 10) (Nat.div_lt_self (by omega) (by omega)) hmem
        · exact digitChar_ne_underscore (n % 10) heq.symm

theorem takeWhile_all_sentinel {p : Char → Bool} :
    ∀ l : List Char, (∀ c ∈ l, p c = true) → ∀ x, p x = false →
      ∀ r, (l ++ x :: r).takeWhile p = l := by
  intro l
  induction l with
  | nil =>
      intro _ x hx r
      simp [List.takeWhile_cons, hx]
  | cons c cs ih =>
      intro h x hx r
      simp only [List.cons_append, List.takeWhile_cons, h c (by simp)]
      simp [ih (fun d hd => h d (by simp [hd])) x hx r]

theorem underscore_suffix_inj :
    ∀ xs ys xs' ys' : List Char, '_' ∉ ys → '_' ∉ ys' →
      xs ++ '_' :: ys = xs' ++ '_' :: ys' → ys = ys' := by
  intro xs ys xs' ys' hy hy' h
  have key : ∀ zs ws : List Char, '_' ∉ ws →
      ((zs ++ '_' :: ws).reverse.takeWhile (fun c => c != '_')).reverse = ws := by
    intro zs ws hw
    rw [List.reverse_append, List.reverse_cons, List.append_assoc,
        List.singleton_append]
    rw [takeWhile_all_sentinel ws.reverse
          (fun c hc => by
            simp only [bne_iff_ne, ne_eq, decide_eq_true_eq]
            intro hceq
            rw [hceq] at hc
            exact hw (List.mem_reverse.mp hc))
          '_' (by simp) zs.reverse]
    exact List.reverse_reverse ws
  have h1 := key xs ys hy
  have h2 := key xs' ys' hy'
  rw [h] at h1
  rw [h2] at h1
  exact h1.symm

theorem synthToolCallId_inj (n1 n2 : String) (t1 t2 c1 c2 : Nat)
    (hc : c1 ≠ c2) :
    (synthToolCallId n1 t1 c1).1 ≠ (synthToolCallId n2 t2 c2).1 := by
  intro h
  simp only [synthToolCallId] at h
  have hd := congrArg String.data h
  simp only [String.data_append] at hd
  rw [repr_eq_decChars t1, repr_eq_decChars t2,
      repr_eq_decChars (c1 + 1), repr_eq_decChars (c2 + 1)] at hd
  simp only [List.asString] at hd
  have hshape : ∀ (nm t c : List Char),
      nm ++ ['_'] ++ t ++ ['_'] ++ c = (nm ++ '_' :: t) ++ '_' :: c := by
    intro nm t c
    simp
  rw [hshape, hshape] at hd
  have hdc := underscore_suffix_inj _ _ _ _
    (decChars_no_underscore (c1 + 1)) (decChars_no_underscore (c2 + 1)) hd
  have := decChars_inj (c1 + 1) (c2 + 1) hdc
  omega

/-- C3 amended: incoming identity resolution follows the precedence
marker, then server id, then synthesis — but with JS truthiness tests, not
mere presence: a present marker whose value is falsy (such as the empty
string) is skipped, and an empty-string server id is skipped.  The
synthesized id has the shape `<name>_<decimal now>_<decimal counter>` and
distinct counter values give distinct synthesized ids, so ids synthesized
within one stream (whose counter increments at each synthesis) are unique.
The arguments exposed to the caller never contain the marker key. -/
theorem incoming_id_resolution_amended (name : String) (args : ArgsMap)
    (serverId : Option String) (now cnt : Nat) :
    (∀ v, jsGet markerKey args = some v → jsTruthy v = true →
        resolveToolCallId name args serverId now cnt = (v, cnt)) ∧
    (∀ s, (∀ v, jsGet markerKey args = some v → jsTruthy v = false) →
        serverId = some s → s ≠ "" →
        resolveToolCallId name args serverId now cnt = (JVal.str s, cnt)) ∧
    ((∀ v, jsGet markerKey args = some v → jsTruthy v = false) →
     (∀ s, serverId = some s → s = "") →
        resolveToolCallId name args serverId now cnt =
          (JVal.str (name ++ "_" ++ Nat.repr now ++ "_" ++ Nat.repr (cnt + 1)),
           cnt + 1)) ∧
    (∀ n1 n2 : String, ∀ t1 t2 c1 c2 : Nat, c1 ≠ c2 →
        (synthToolCallId n1 t1 c1).1 ≠ (synthToolCallId n2 t2 c2).1) ∧
    jsGet markerKey (jsDelete markerKey args) = none := by
  refine ⟨?_, ?_, ?_, ?_, jsGet_jsDelete_self markerKey args⟩
  · intro v hv htr
    simp [resolveToolCallId, hv, htr]
  · intro s hm hs hne
    cases hget : jsGet markerKey args with
    | none =>
        simp [resolveToolCallId, hget, hs, hne]
    | some v =>
        have := hm v hget
        simp [resolveToolCallId, hget, this, hs, hne]
  · intro hm hsrv
    cases hsid : serverId with
    | none =>
        cases hget : jsGet markerKey args with
        | none => simp [resolveToolCallId, hget, synthToolCallId]
        | some v =>
            have := hm v hget
            simp [resolveToolCallId, hget, this, synthToolCallId]
    | some s =>
        have hse : s = "" := hsrv s hsid
        cases hget : jsGet markerKey args with
        | none => simp [resolveToolCallId, hget, hse, synthToolCallId]
        | some v =>
            have := hm v hget
            simp [resolveToolCallId, hget, this, hse, synthToolCallId]
  · intro n1 n2 t1 t2 c1 c2 hc
    exact synthToolCallId_inj n1 n2 t1 t2 c1 c2 hc

/-- Witness for the amended C3: concrete resolutions exercising each
precedence branch, the synthesized-id distinctness, and marker removal. -/
theorem incoming_id_resolution_amended_witness :
    resolveToolCallId "f" [(markerKey, JVal.str "id1")] (some "srv") 5 0 =
      (JVal.str "id1", 0) ∧
    resolveToolCallId "f" [] (some "srv") 5 0 = (JVal.str "srv", 0) ∧
    resolveToolCallId "f" [] none 5 0 = (JVal.str "f_5_1", 1) ∧
    (synthToolCallId "f" 5 0).1 ≠ (synthToolCallId "f" 5 1).1 ∧
    jsGet markerKey (jsDelete markerKey [(markerKey, JVal.str "id1")]) =
      none := by
  refine ⟨?_, ?_, ?_, ?_, ?_⟩
  · exact (incoming_id_resolution_amended "f" [(markerKey, JVal.str "id1")]
      (some "srv") 5 0).1 (JVal.str "id1") (by decide) (by decide)
  · exact (incoming_id_resolution_amended "f" [] (some "srv") 5 0).2.1 "srv"
      (by intro v hv; simp [jsGet] at hv) rfl (by decide)
  · have h := (incoming_id_resolution_amended "f" [] none 5 0).2.2.1
      (by intro v hv; simp [jsGet] at hv) (by intro s hs; simp at hs)
    rw [h]
    decide
  · exact (incoming_id_resolution_amended "f" [] none 5 0).2.2.2.1
      "f" "f" 5 5 0 1 (by decide)
  · exact (incoming_id_resolution_amended "f" [(markerKey, JVal.str "id1")]
      none 5 0).2.2.2.2

/-- C9: the id-synthesis counter is module-scoped, not per-request: run two
streams back to back, each receiving one functionCall with no marker and no
server id; the second stream synthesizes `f_0_2` when the first stream
processed one tool call, but `f_0_1` when the first stream was empty — the
second invocation's ids depend on the first invocation's tool-call count. -/
theorem shared_counter_bug :
    (runTwoStreams 0 [synthOnlyChunk] [synthOnlyChunk]).2 =
      [Event.toolcall_start 0, Event.toolcall_delta 0 [],
       Event.toolcall_end 0
         { id := JVal.str "f_0_2", name := "f", arguments := [],
           thoughtSignature := none }] ∧
    (runTwoStreams 0 [] [synthOnlyChunk]).2 =
      [Event.toolcall_start 0, Event.toolcall_delta 0 [],
       Event.toolcall_end 0
         { id := JVal.str "f_0_1", name := "f", arguments := [],
           thoughtSignature := none }] ∧
    (runTwoStreams 0 [synthOnlyChunk] [synthOnlyChunk]).2 ≠
      (runTwoStreams 0 [] [synthOnlyChunk]).2 := by
  refine ⟨by decide, by decide, by decide⟩

theorem splitNL_append (a b : List Char) :
    splitNL (a ++ b) =
      ((splitNL a).1 ++ (glue (splitNL a).2 (splitNL b)).1,
       (glue (splitNL a).2 (splitNL b)).2) := by
  induction a with
  | nil =>
      rcases hb : splitNL b with ⟨lb, tb⟩
      cases lb <;> simp [splitNL, glue, hb]
  | cons c a' ih =>
      rcases ha : splitNL a' with ⟨la, ta⟩
      rcases hb : splitNL b with ⟨lb, tb⟩
      rw [ha, hb] at ih
      by_cases hc : c = '\n' <;> cases la <;> cases lb <;>
        simp [splitNL, glue, ih, ha, hb, hc]

theorem splitNL_trailing_no_newline (l : List Char) :
    '\n' ∉ (splitNL l).2 := by
  induction l with
  | nil => simp [splitNL]
  | cons c cs ih =>
      simp only [splitNL]
      by_cases hc : c = '\n'
      · simp [hc, ih]
      · cases h1 : (splitNL cs).1 with
        | nil =>
            simp [hc, h1]
            exact ⟨fun he => hc he.symm, ih⟩
        | cons l ls =>
            simp [hc, h1]
            exact ih

theorem splitNL_of_no_newline (l : List Char) (h : '\n' ∉ l) :
    splitNL l = ([], l) := by
  induction l with
  | nil => simp [splitNL]
  | cons c cs ih =>
      simp only [List.mem_cons] at h
      push_neg at h
      simp only [splitNL, ih h.2]
      have : ¬ c = '\n' := fun he => h.1 he.symm
      simp [this]

theorem runReads_eq (reads : List (List Char)) :
    ∀ buf : List Char, '\n' ∉ buf →
      runReads buf reads = splitNL (buf ++ reads.flatten) := by
  induction reads with
  | nil =>
      intro buf hbuf
      simp [runReads, splitNL_of_no_newline buf hbuf]
  | cons r rs ih =>
      intro buf hbuf
      simp only [runReads, List.flatten_cons]
      rw [ih (splitNL (buf ++ r)).2 (splitNL_trailing_no_newline (buf ++ r))]
      rw [show buf ++ (r ++ rs.flatten) = (buf ++ r) ++ rs.flatten by simp]
      rw [splitNL_append (buf ++ r) rs.flatten]
      rw [splitNL_append (splitNL (buf ++ r)).2 rs.flatten]
      rw [splitNL_of_no_newline (splitNL (buf ++ r)).2
            (splitNL_trailing_no_newline (buf ++ r))]
      simp

/-- C4: chunk-boundary invariance.  For every way of splitting a byte
sequence into reads, the SSE parser emits the same ordered complete-line
sequence — and hence the same ordered decoded-chunk sequence for the
per-line handling with any decoder — as parsing the whole sequence as one
contiguous read; the trailing partial line is never parsed. -/
theorem sse_chunk_boundary_invariance {χ : Type}
    (decode : List Char → Option χ) (reads : List (List Char)) :
    (runReads [] reads).1 = (runReads [] [reads.flatten]).1 ∧
    sseChunks decode reads = sseChunks decode [reads.flatten] := by
  have h1 : runReads [] reads = splitNL reads.flatten := by
    have := runReads_eq reads [] (by simp)
    simpa using this
  have h2 : runReads [] [reads.flatten] = splitNL reads.flatten := by
    have := runReads_eq [reads.flatten] [] (by simp)
    simpa using this
  constructor
  · rw [h1, h2]
  · simp only [sseChunks, h1, h2]

theorem scanEvents_append (s : Option BlockKind) (a b : List Event) :
    scanEvents s (a ++ b) =
      match scanEvents s a with
      | some s' => scanEvents s' b
      | none => none := by
  induction a generalizing s with
  | nil => simp [scanEvents]
  | cons e es ih =>
      simp only [List.cons_append, scanEvents]
      cases scanStep s e with
      | none => rfl
      | some s' => exact ih s'

theorem scan_processTextPart (st : StreamState) (s : String) :
    scanEvents (kindOf st.currentBlock) (processTextPart st s).2 =
      some (kindOf (processTextPart st s).1.currentBlock) := by
  obtain ⟨cont, cur, sr, cnt⟩ := st
  cases cur with
  | none => simp [processTextPart, scanEvents, scanStep, kindOf]
  | some b =>
      cases b with
      | text t => simp [processTextPart, scanEvents, scanStep, kindOf]
      | thinking t => simp [processTextPart, scanEvents, scanStep, kindOf]

theorem scan_processFunctionCallPart (st : StreamState) (fc : FunctionCall)
    (sig : Option String) (now : Nat) :
    scanEvents (kindOf st.currentBlock)
        (processFunctionCallPart st fc sig now).2 =
      some (kindOf (processFunctionCallPart st fc sig now).1.currentBlock) := by
  obtain ⟨cont, cur, sr, cnt⟩ := st
  cases cur with
  | none => simp [processFunctionCallPart, scanEvents, scanStep, kindOf]
  | some b =>
      cases b with
      | text t =>
          simp [processFunctionCallPart, scanEvents, scanStep, kindOf]
      | thinking t =>
          simp [processFunctionCallPart, scanEvents, scanStep, kindOf]

theorem scan_processPart (now : Nat) (st : StreamState) (p : GooglePart) :
    scanEvents (kindOf st.currentBlock) (processPart now st p).2 =
      some (kindOf (processPart now st p).1.currentBlock) := by
  simp only [processPart]
  cases hp : p.text with
  | none =>
      cases hf : p.functionCall with
      | none => simp [scanEvents]
      | some fc =>
          simpa using scan_processFunctionCallPart st fc p.thoughtSignature now
  | some s =>
      cases hf : p.functionCall with
      | none => simpa using scan_processTextPart st s
      | some fc =>
          rw [scanEvents_append, scan_processTextPart st s]
          simpa using
            scan_processFunctionCallPart (processTextPart st s).1 fc
              p.thoughtSignature now

theorem scan_processParts (now : Nat) (ps : List GooglePart) :
    ∀ st : StreamState,
      scanEvents (kindOf st.currentBlock) (processParts now st ps).2 =
        some (kindOf (processParts now st ps).1.currentBlock) := by
  induction ps with
  | nil => intro st; simp [processParts, scanEvents]
  | cons p ps ih =>
      intro st
      simp only [processParts]
      rw [scanEvents_append, scan_processPart now st p]
      exact ih (processPart now st p).1

theorem scan_processChunk (now : Nat) (st : StreamState)
    (ch : GoogleResponse) :
    scanEvents (kindOf st.currentBlock) (processChunk now st ch).2 =
      some (kindOf (processChunk now st ch).1.currentBlock) := by
  simp only [processChunk]
  cases hc : ch.candidates.head? with
  | none => simp [hc, scanEvents]
  | some cand =>
      cases hcc : cand.content with
      | none =>
          cases hfr : cand.finishReason with
          | none => simp [hc, hcc, hfr, scanEvents]
          | some fr =>
              simp only [hc, hcc, hfr]
              split <;> simp [scanEvents]
      | some gc =>
          cases hfr : cand.finishReason with
          | none =>
              simp only [hc, hcc, hfr]
              simpa using scan_processParts now gc.parts st
          | some fr =>
              simp only [hc, hcc, hfr]
              split <;> simpa using scan_processParts now gc.parts st

theorem scan_processChunks (now : Nat) (chunks : List GoogleResponse) :
    ∀ st : StreamState,
      scanEvents (kindOf st.currentBlock) (processChunks now st chunks).2 =
        some (kindOf (processChunks now st chunks).1.currentBlock) := by
  induction chunks with
  | nil => intro st; simp [processChunks, scanEvents]
  | cons c cs ih =>
      intro st
      simp only [processChunks]
      rw [scanEvents_append, scan_processChunk now st c]
      exact ih (processChunk now st c).1

theorem scan_finalClose (st : StreamState) :
    scanEvents (kindOf st.currentBlock) (finalCloseEvents st) = some none := by
  obtain ⟨cont, cur, sr, cnt⟩ := st
  cases cur with
  | none => simp [finalCloseEvents, scanEvents, kindOf]
  | some b =>
      cases b with
      | text t => simp [finalCloseEvents, scanEvents, scanStep, kindOf]
      | thinking t => simp [finalCloseEvents, scanEvents, scanStep, kindOf]

theorem scanStep_terminalEvent (s : Option BlockKind) (st : StreamState) :
    scanStep s (terminalEvent st) = some s := by
  unfold terminalEvent
  split <;> rfl

theorem scanEvents_append_some {s s' : Option BlockKind} {a : List Event}
    (h : scanEvents s a = some s') (b : List Event) :
    scanEvents s (a ++ b) = scanEvents s' b := by
  rw [scanEvents_append, h]

/-- C5: single open block.  Scanning the full event trace of a successful
stream with the bracketing checker succeeds and ends with no open block:
no two blocks are ever simultaneously open, deltas and ends always match
the open block, toolcall events occur only after any open block was closed,
and every opened block is closed exactly once (by a tool call or at stream
end). -/
theorem assembler_single_open_block (now counter : Nat)
    (chunks : List GoogleResponse) :
    scanEvents none
        (streamVertexAIRun now counter (RunOutcome.success chunks)) =
      some none := by
  simp only [streamVertexAIRun]
  have e0 : scanEvents none [Event.start] = some none := by
    simp [scanEvents, scanStep]
  have h1 : scanEvents none
      (processChunks now (initState counter) chunks).2 =
      some (kindOf
        (processChunks now (initState counter) chunks).1.currentBlock) :=
    scan_processChunks now chunks (initState counter)
  have hA : scanEvents none
      ([Event.start] ++ (processChunks now (initState counter) chunks).2) =
      some (kindOf
        (processChunks now (initState counter) chunks).1.currentBlock) := by
    rw [scanEvents_append_some e0]
    exact h1
  have hB : scanEvents none
      (([Event.start] ++ (processChunks now (initState counter) chunks).2) ++
        finalCloseEvents (processChunks now (initState counter) chunks).1) =
      some none := by
    rw [scanEvents_append_some hA]
    exact scan_finalClose (processChunks now (initState counter) chunks).1
  rw [scanEvents_append_some hB]
  simp [scanEvents, scanStep_terminalEvent]

theorem processTextPart_no_terminal (st : StreamState) (s : String) :
    ∀ e ∈ (processTextPart st s).2, isTerminal e = false := by
  obtain ⟨cont, cur, sr, cnt⟩ := st
  cases cur with
  | none => simp [processTextPart, isTerminal]
  | some b => cases b <;> simp [processTextPart, isTerminal]

theorem processFunctionCallPart_no_terminal (st : StreamState)
    (fc : FunctionCall) (sig : Option String) (now : Nat) :
    ∀ e ∈ (processFunctionCallPart st fc sig now).2, isTerminal e = false := by
  obtain ⟨cont, cur, sr, cnt⟩ := st
  cases cur with
  | none => simp [processFunctionCallPart, isTerminal]
  | some b => cases b <;> simp [processFunctionCallPart, isTerminal]

theorem processPart_no_terminal (now : Nat) (st : StreamState)
    (p : GooglePart) :
    ∀ e ∈ (processPart now st p).2, isTerminal e = false := by
  cases hp : p.text with
  | none =>
      cases hf : p.functionCall with
      | none => simp [processPart, hp, hf]
      | some fc =>
          simp only [processPart, hp, hf, List.nil_append]
          exact processFunctionCallPart_no_terminal st fc p.thoughtSignature now
  | some s =>
      cases hf : p.functionCall with
      | none =>
          simp only [processPart, hp, hf, List.append_nil]
          exact processTextPart_no_terminal st s
      | some fc =>
          simp only [processPart, hp, hf]
          intro e he
          rcases List.mem_append.mp he with h | h
          · exact processTextPart_no_terminal st s e h
          · exact processFunctionCallPart_no_terminal (processTextPart st s).1
              fc p.thoughtSignature now e h

theorem processParts_no_terminal (now : Nat) (ps : List GooglePart) :
    ∀ st : StreamState, ∀ e ∈ (processParts now st ps).2,
      isTerminal e = false := by
  induction ps with
  | nil => intro st; simp [processParts]
  | cons p ps ih =>
      intro st e he
      simp only [processParts] at he
      rcases List.mem_append.mp he with h | h
      · exact processPart_no_terminal now st p e h
      · exact ih (processPart now st p).1 e h

theorem processChunk_no_terminal (now : Nat) (st : StreamState)
    (ch : GoogleResponse) :
    ∀ e ∈ (processChunk now st ch).2, isTerminal e = false := by
  simp only [processChunk]
  cases hc : ch.candidates.head? with
  | none => simp [hc]
  | some cand =>
      cases hcc : cand.content with
      | none => simp [hc, hcc]
      | some gc =>
          simp only [hc, hcc]
          exact processParts_no_terminal now gc.parts st

theorem processChunks_no_terminal (now : Nat) (chunks : List GoogleResponse) :
    ∀ st : StreamState, ∀ e ∈ (processChunks now st chunks).2,
      isTerminal e = false := by
  induction chunks with
  | nil => intro st; simp [processChunks]
  | cons c cs ih =>
      intro st e he
      simp only [processChunks] at he
      rcases List.mem_append.mp he with h | h
      · exact processChunk_no_terminal now st c e h
      · exact ih (processChunk now st c).1 e h

theorem finalClose_no_terminal (st : StreamState) :
    ∀ e ∈ finalCloseEvents st, isTerminal e = false := by
  obtain ⟨cont, cur, sr, cnt⟩ := st
  cases cur with
  | none => simp [finalCloseEvents]
  | some b => cases b <;> simp [finalCloseEvents, isTerminal]

theorem isTerminal_terminalEvent (st : StreamState) :
    isTerminal (terminalEvent st) = true := by
  unfold terminalEvent
  split <;> rfl

theorem isDoneEvent_terminalEvent (st : StreamState) :
    isDoneEvent (terminalEvent st) = isStopLike st.stopReason := by
  cases h : st.stopReason <;>
    simp [terminalEvent, isDoneEvent, isStopLike, h]

/-- C6: exactly one terminal event per invocation — `done` when the
accumulated stop reason is stop, length or toolUse, otherwise `error` —
and it is the last event pushed before the output channel is closed, also
when the read loop throws (catch handler) or the function fails before the
stream starts. -/
theorem terminal_emission_exactly_once (now counter : Nat) (o : RunOutcome) :
    (streamVertexAIRun now counter o).countP (fun e => isTerminal e) = 1 ∧
    ∃ e, (streamVertexAIRun now counter o).getLast? = some e ∧
      isTerminal e = true ∧
      ∀ chunks, o = RunOutcome.success chunks →
        (isDoneEvent e = true ↔
          isStopLike
              (processChunks now (initState counter) chunks).1.stopReason =
            true) := by
  cases o with
  | success chunks =>
      have hz1 : (processChunks now (initState counter) chunks).2.countP
          (fun e => isTerminal e) = 0 :=
        List.countP_eq_zero.mpr
          (by
            intro a ha
            simp [processChunks_no_terminal now chunks (initState counter) a ha])
      have hz2 : (finalCloseEvents
            (processChunks now (initState counter) chunks).1).countP
          (fun e => isTerminal e) = 0 :=
        List.countP_eq_zero.mpr
          (by
            intro a ha
            simp [finalClose_no_terminal
              (processChunks now (initState counter) chunks).1 a ha])
      have hstart : isTerminal Event.start = false := rfl
      constructor
      · simp [streamVertexAIRun, List.countP_append, hz1, hz2,
              List.countP_cons, hstart, isTerminal_terminalEvent]
      · refine ⟨terminalEvent (processChunks now (initState counter) chunks).1,
          ?_, isTerminal_terminalEvent _, ?_⟩
        · simp only [streamVertexAIRun]
          exact List.getLast?_concat _
        · intro chs heq
          injection heq with h
          subst h
          rw [isDoneEvent_terminalEvent]
  | readThrew chunks msg =>
      have hz1 : (processChunks now (initState counter) chunks).2.countP
          (fun e => isTerminal e) = 0 :=
        List.countP_eq_zero.mpr
          (by
            intro a ha
            simp [processChunks_no_terminal now chunks (initState counter) a ha])
      have hstart : isTerminal Event.start = false := rfl
      have herr : isTerminal (Event.error StopReason.error (some msg)) =
          true := rfl
      constructor
      · simp [streamVertexAIRun, List.countP_append, hz1,
              List.countP_cons, hstart, herr]
      · refine ⟨Event.error StopReason.error (some msg), ?_, rfl, ?_⟩
        · simp only [streamVertexAIRun]
          exact List.getLast?_concat _
        · intro chs heq
          exact RunOutcome.noConfusion heq
  | preStreamFailure msg =>
      have herr : isTerminal (Event.error StopReason.error (some msg)) =
          true := rfl
      constructor
      · simp [streamVertexAIRun, List.countP_cons, herr]
      · refine ⟨Event.error StopReason.error (some msg), by simp [streamVertexAIRun], rfl, ?_⟩
        intro chs heq
        exact RunOutcome.noConfusion heq

/-- Witness for C6: concrete runs of the success path and the throwing
path, each emitting exactly one terminal event. -/
theorem terminal_emission_exactly_once_witness :
    (streamVertexAIRun 0 0 (RunOutcome.success [synthOnlyChunk])).countP
        (fun e => isTerminal e) = 1 ∧
    (streamVertexAIRun 0 0 (RunOutcome.readThrew [synthOnlyChunk]
        "network error")).countP (fun e => isTerminal e) = 1 :=
  ⟨(terminal_emission_exactly_once 0 0
      (RunOutcome.success [synthOnlyChunk])).1,
   (terminal_emission_exactly_once 0 0
      (RunOutcome.readThrew [synthOnlyChunk] "network error")).1⟩

theorem processTextPart_no_thinking (st : StreamState) (s : String)
    (h : isThinkingBlock st.currentBlock = false) :
    isThinkingBlock (processTextPart st s).1.currentBlock = false ∧
    ∀ e ∈ (processTextPart st s).2, isThinkingEvent e = false := by
  obtain ⟨cont, cur, sr, cnt⟩ := st
  cases cur with
  | none => simp [processTextPart, isThinkingBlock, isThinkingEvent]
  | some b =>
      cases b with
      | text t => simp [processTextPart, isThinkingBlock, isThinkingEvent]
      | thinking t => simp [isThinkingBlock] at h

theorem processFunctionCallPart_no_thinking (st : StreamState)
    (fc : FunctionCall) (sig : Option String) (now : Nat)
    (h : isThinkingBlock st.currentBlock = false) :
    isThinkingBlock
        (processFunctionCallPart st fc sig now).1.currentBlock = false ∧
    ∀ e ∈ (processFunctionCallPart st fc sig now).2,
      isThinkingEvent e = false := by
  obtain ⟨cont, cur, sr, cnt⟩ := st
  cases cur with
  | none =>
      simp [processFunctionCallPart, isThinkingBlock, isThinkingEvent]
  | some b =>
      cases b with
      | text t =>
          simp [processFunctionCallPart, isThinkingBlock, isThinkingEvent]
      | thinking t => simp [isThinkingBlock] at h

theorem processPart_no_thinking (now : Nat) (st : StreamState)
    (p : GooglePart) (h : isThinkingBlock st.currentBlock = false) :
    isThinkingBlock (processPart now st p).1.currentBlock = false ∧
    ∀ e ∈ (processPart now st p).2, isThinkingEvent e = false := by
  cases hp : p.text with
  | none =>
      cases hf : p.functionCall with
      | none => simpa [processPart, hp, hf] using h
      | some fc =>
          simp only [processPart, hp, hf, List.nil_append]
          exact processFunctionCallPart_no_thinking st fc p.thoughtSignature
            now h
  | some s =>
      have h1 := processTextPart_no_thinking st s h
      cases hf : p.functionCall with
      | none =>
          simp only [processPart, hp, hf, List.append_nil]
          exact h1
      | some fc =>
          have h2 := processFunctionCallPart_no_thinking (processTextPart st s).1
            fc p.thoughtSignature now h1.1
          simp only [processPart, hp, hf]
          refine ⟨h2.1, ?_⟩
          intro e he
          rcases List.mem_append.mp he with hm | hm
          · exact h1.2 e hm
          · exact h2.2 e hm

theorem processParts_no_thinking (now : Nat) (ps : List GooglePart) :
    ∀ st : StreamState, isThinkingBlock st.currentBlock = false →
      isThinkingBlock (processParts now st ps).1.currentBlock = false ∧
      ∀ e ∈ (processParts now st ps).2, isThinkingEvent e = false := by
  induction ps with
  | nil => intro st h; simpa [processParts] using h
  | cons p ps ih =>
      intro st h
      have h1 := processPart_no_thinking now st p h
      have h2 := ih (processPart now st p).1 h1.1
      simp only [processParts]
      refine ⟨h2.1, ?_⟩
      intro e he
      rcases List.mem_append.mp he with hm | hm
      · exact h1.2 e hm
      · exact h2.2 e hm

theorem processChunk_no_thinking (now : Nat) (st : StreamState)
    (ch : GoogleResponse) (h : isThinkingBlock st.currentBlock = false) :
    isThinkingBlock (processChunk now st ch).1.currentBlock = false ∧
    ∀ e ∈ (processChunk now st ch).2, isThinkingEvent e = false := by
  simp only [processChunk]
  cases hc : ch.candidates.head? with
  | none => simpa [hc] using h
  | some cand =>
      cases hcc : cand.content with
      | none =>
          cases hfr : cand.finishReason with
          | none => simpa [hc, hcc, hfr] using h
          | some fr =>
              simp only [hc, hcc, hfr]
              split
              · simpa using h
              · simpa using h
      | some gc =>
          have hp := processParts_no_thinking now gc.parts st h
          cases hfr : cand.finishReason with
          | none => simpa [hc, hcc, hfr] using hp
          | some fr =>
              simp only [hc, hcc, hfr]
              split
              · simpa using hp
              · simpa using hp

theorem processChunks_no_thinking (now : Nat) (chunks : List GoogleResponse) :
    ∀ st : StreamState, isThinkingBlock st.currentBlock = false →
      isThinkingBlock (processChunks now st chunks).1.currentBlock = false ∧
      ∀ e ∈ (processChunks now st chunks).2, isThinkingEvent e = false := by
  induction chunks with
  | nil => intro st h; simpa [processChunks] using h
  | cons c cs ih =>
      intro st h
      have h1 := processChunk_no_thinking now st c h
      have h2 := ih (processChunk now st c).1 h1.1
      simp only [processChunks]
      refine ⟨h2.1, ?_⟩
      intro e he
      rcases List.mem_append.mp he with hm | hm
      · exact h1.2 e hm
      · exact h2.2 e hm

theorem finalClose_no_thinking (st : StreamState)
    (h : isThinkingBlock st.currentBlock = false) :
    ∀ e ∈ finalCloseEvents st, isThinkingEvent e = false := by
  obtain ⟨cont, cur, sr, cnt⟩ := st
  cases cur with
  | none => simp [finalCloseEvents]
  | some b =>
      cases b with
      | text t => simp [finalCloseEvents, isThinkingEvent]
      | thinking t => simp [isThinkingBlock] at h

theorem isThinkingEvent_terminalEvent (st : StreamState) :
    isThinkingEvent (terminalEvent st) = false := by
  unfold terminalEvent
  split <;> rfl

/-- C10: thinking blocks are never opened.  The full trace of a successful
stream contains no thinking_start, thinking_delta or thinking_end event,
and the open-block state is never a thinking block (the statement covers
every chunk list, hence every reachable state, since each prefix of a
stream is itself a chunk list). -/
theorem thinking_never_opened (now counter : Nat)
    (chunks : List GoogleResponse) :
    (∀ e ∈ streamVertexAIRun now counter (RunOutcome.success chunks),
        isThinkingEvent e = false) ∧
    isThinkingBlock
        (processChunks now (initState counter) chunks).1.currentBlock =
      false := by
  have h := processChunks_no_thinking now chunks (initState counter)
    (by simp [initState, isThinkingBlock])
  refine ⟨?_, h.1⟩
  intro e he
  simp only [streamVertexAIRun, List.append_assoc, List.mem_append,
    List.mem_singleton, List.mem_cons, List.not_mem_nil, or_false] at he
  rcases he with he | he | he | he
  · rw [he]; rfl
  · exact h.2 e he
  · exact finalClose_no_thinking _ h.1 e he
  · rw [he]
    exact isThinkingEvent_terminalEvent _

/-- C8: decode failure is non-fatal.  A malformed data line produces one
decodeFail diagnostic at its position, and the chunks decoded from all
other lines are processed in order, unaffected — the stream is never
aborted by a malformed line. -/
theorem decode_failure_nonfatal {χ : Type} (decode : List Char → Option χ)
    (pre post : List (List Char)) (bad : List Char)
    (hbad : classifyLine decode bad = LineOutcome.decodeFail) :
    chunksOfLines decode (pre ++ bad :: post) =
      chunksOfLines decode pre ++ chunksOfLines decode post ∧
    lineOutcomes decode (pre ++ bad :: post) =
      lineOutcomes decode pre ++ LineOutcome.decodeFail ::
        lineOutcomes decode post := by
  constructor
  · simp [chunksOfLines, List.filterMap_append, hbad]
  · simp [lineOutcomes, hbad]

/-- Witness for C8: the middle line `data: oops` fails to decode; the
two surrounding `data: ok` lines still decode, in order. -/
theorem decode_failure_nonfatal_witness :
    classifyLine exDecode "data: oops".toList = LineOutcome.decodeFail ∧
    chunksOfLines exDecode
        ["data: ok".toList, "data: oops".toList, "data: ok".toList] =
      chunksOfLines exDecode ["data: ok".toList] ++
        chunksOfLines exDecode ["data: ok".toList] ∧
    chunksOfLines exDecode
        ["data: ok".toList, "data: oops".toList, "data: ok".toList] =
      [1, 1] := by
  refine ⟨by decide, ?_, by decide⟩
  exact (decode_failure_nonfatal exDecode ["data: ok".toList]
    ["data: ok".toList] "data: oops".toList (by decide)).1

/-- Witness for C10: a concrete run containing a tool call; its start event
is not a thinking event and the final open-block state is not thinking. -/
theorem thinking_never_opened_witness :
    Event.start ∈ streamVertexAIRun 0 0 (RunOutcome.success [synthOnlyChunk]) ∧
    isThinkingEvent Event.start = false ∧
    isThinkingBlock
        (processChunks 0 (initState 0) [synthOnlyChunk]).1.currentBlock =
      false :=
  ⟨by decide,
   (thinking_never_opened 0 0 [synthOnlyChunk]).1 Event.start (by decide),
   (thinking_never_opened 0 0 [synthOnlyChunk]).2⟩

end VertexAI
